import Mathlib

/-
  Verification of the directory reconciliation engine of the
  idm-roles-resources-wizualizer repository. The core under study is the Go
  batch program in src/go-ldap-data-sync/main.go: attribute decoders, the three
  entity synchronizers, and the mark and purge lifecycle pass. The Go code is
  shallowly embedded below: Go strings become String, timestamps become Int
  (seconds), the database tables become lists of row structures, and the
  transactional statements become pure functions returning the committed state
  or, on a statement failure, the unchanged previous state.
-/

namespace LdapSync

/-- Character constants used by the embedding, named to keep the source text
free of delimiter literals. -/
def quoteChar : Char := Char.ofNat 34

/-- Backslash character constant. -/
def backslashChar : Char := Char.ofNat 92

/-- Opening curly brace character constant. -/
def lbraceChar : Char := Char.ofNat 123

/-- Closing curly brace character constant. -/
def rbraceChar : Char := Char.ofNat 125

/-- Test whether the separator character list starts the given character list. -/
def startsWithSep : List Char → List Char → Bool
  | _, [] => true
  | [], _ :: _ => false
  | c :: cs, p :: ps => c = p && startsWithSep cs ps

/-- Removal of one leading separator occurrence from a character list. -/
def dropSepChars : List Char → List Char → List Char
  | s, [] => s
  | [], _ :: _ => []
  | _ :: cs, _ :: ps => dropSepChars cs ps

/-- Fuel driven left to right split of a character list at every non
overlapping occurrence of the nonempty separator; with fuel at least the
length of the list the fuel never runs out. -/
def goSplitCharsFuel (sep : List Char) : Nat → List Char → List (List Char)
  | _, [] => [[]]
  | 0, s => [s]
  | fuel + 1, c :: cs =>
    if startsWithSep (c :: cs) sep then
      [] :: goSplitCharsFuel sep fuel (dropSepChars (c :: cs) sep)
    else
      match goSplitCharsFuel sep fuel cs with
      | part :: rest => (c :: part) :: rest
      | [] => [[c]]

/-- Model of the Go function strings.Split: the string is split at every non
overlapping occurrence of the separator, scanning left to right; an empty
separator splits into single characters, an empty string gives one empty
part. -/
def goSplit (s sep : String) : List String :=
  if sep = "" then s.data.map String.singleton
  else (goSplitCharsFuel sep.data s.data.length s.data).map String.mk

/-- Model of the Go function strings.Join. -/
def goJoin (sep : String) : List String → String
  | [] => ""
  | [a] => a
  | a :: b :: rest => a ++ sep ++ goJoin sep (b :: rest)

/-- Model of the Go function strings.SplitN with limit 2: the string is split at
the first occurrence of the separator only, later occurrences stay in the
second part. -/
def goSplitN2 (s sep : String) : List String :=
  match goSplit s sep with
  | [] => []
  | [a] => [a]
  | a :: rest => [a, goJoin sep rest]

/-- Model of the Go function strings.SplitN with limit 3. -/
def goSplitN3 (s sep : String) : List String :=
  match goSplit s sep with
  | [] => []
  | [a] => [a]
  | [a, b] => [a, b]
  | a :: b :: rest => [a, b, goJoin sep rest]

/-- Model of the Go function strings.Contains for a nonempty separator: the
separator occurs in the string exactly when splitting on it yields at least two
parts. -/
def goContains (s sub : String) : Bool :=
  decide (1 < (goSplit s sub).length)

/-- Model of the Go function strings.ReplaceAll for a nonempty pattern: every
non overlapping occurrence of old is replaced by new, which by the Go
documentation is the join on new of the split on old. -/
def goReplaceAll (s old new : String) : String :=
  goJoin new (goSplit s old)

/-- Model of assignment into a Go map with string keys, on an association list:
an existing binding for the key is overwritten in place, otherwise the binding
is appended. -/
def mapInsert (m : List (String × String)) (k v : String) : List (String × String) :=
  if m.any (fun p => decide (p.1 = k)) then
    m.map (fun p => if p.1 = k then (k, v) else p)
  else m ++ [(k, v)]

/-- Embedding of parseLocalizedAttributes, main.go lines 726 to 739: the empty
string gives the empty map, otherwise the string is split on the pipe
character, each segment containing a tilde is split at the first tilde and the
two halves are stored in the map. -/
def parseLocalizedAttributes (localizedString : String) : List (String × String) :=
  if localizedString = "" then []
  else
    (goSplit localizedString "|").foldl
      (fun result part =>
        if goContains part "~" then
          match goSplitN2 part "~" with
          | [a, b] => mapInsert result a b
          | _ => result
        else result)
      []

/-- Restatement of the localized text decoder following the words of the
specification: split on pipe, split each segment on the first tilde, drop the
segments without a tilde, and fold the remaining key value pairs into a mapping
in which the last occurrence of a key wins; the empty string gives the empty
mapping. Declared only to be compared with the embedding above. -/
def localizedTextSpec (s : String) : List (String × String) :=
  if s = "" then []
  else
    ((goSplit s "|").filterMap
        (fun part =>
          match goSplitN2 part "~" with
          | [a, b] => some (a, b)
          | _ => none)).foldl
      (fun m kv => mapInsert m kv.1 kv.2) []

/-- Model of the untyped JSON values produced by the Go package encoding/json
when unmarshalling into an empty interface, for the subset this program meets.
Numbers keep their source lexeme. Object fields are kept sorted by key and
duplicate free, mirroring the canonical form a marshalled Go map has. -/
inductive Json where
  | null : Json
  | bool (b : Bool) : Json
  | num (lexeme : String) : Json
  | str (s : String) : Json
  | arr (items : List Json) : Json
  | obj (fields : List (String × Json)) : Json

/-- Insertion of a field into a key sorted field list. A binding already present
for the same key is kept, because during parsing the fields are folded from the
last one backwards, so the kept binding is the later duplicate, matching the Go
map semantics in which the last duplicate key wins. -/
def insertField (k : String) (v : Json) : List (String × Json) → List (String × Json)
  | [] => [(k, v)]
  | (k2, v2) :: rest =>
    if k = k2 then (k2, v2) :: rest
    else if k < k2 then (k, v) :: (k2, v2) :: rest
    else (k2, v2) :: insertField k v rest

/-- Whitespace skipping for the JSON parser model. -/
def skipWs : List Char → List Char
  | c :: rest =>
    if c = ' ' ∨ c = Char.ofNat 9 ∨ c = Char.ofNat 10 ∨ c = Char.ofNat 13 then skipWs rest
    else c :: rest
  | [] => []

/-- Parser for the remainder of a JSON string literal after the opening quote,
modelling the simple escapes used by encoding/json; an unknown escape or a
missing closing quote fails. -/
def parseStrChars : List Char → Option (List Char × List Char)
  | [] => none
  | c :: rest =>
    if c = quoteChar then some ([], rest)
    else if c = backslashChar then
      match rest with
      | e :: rest2 =>
        let dec : Option Char :=
          if e = quoteChar then some quoteChar
          else if e = backslashChar then some backslashChar
          else if e = '/' then some '/'
          else if e = 'n' then some (Char.ofNat 10)
          else if e = 't' then some (Char.ofNat 9)
          else if e = 'r' then some (Char.ofNat 13)
          else none
        match dec with
        | some d =>
          match parseStrChars rest2 with
          | some (cs, rem) => some (d :: cs, rem)
          | none => none
        | none => none
      | [] => none
    else
      match parseStrChars rest with
      | some (cs, rem) => some (c :: cs, rem)
      | none => none

/-- Longest digit run at the head of the character list. -/
def takeDigits : List Char → List Char × List Char
  | [] => ([], [])
  | c :: rest =>
    if c.isDigit then
      let (ds, rem) := takeDigits rest
      (c :: ds, rem)
    else ([], c :: rest)

/-- Optional fraction part of a JSON number lexeme. -/
def parseFracPart : List Char → Option (List Char × List Char)
  | c :: r2 =>
    if c = '.' then
      match takeDigits r2 with
      | ([], _) => none
      | (ds, rem) => some ('.' :: ds, rem)
    else some ([], c :: r2)
  | [] => some ([], [])

/-- Optional exponent part of a JSON number lexeme. -/
def parseExpPart : List Char → Option (List Char × List Char)
  | c :: r2 =>
    if c = 'e' ∨ c = 'E' then
      let (sign, r3) :=
        match r2 with
        | d :: r4 => if d = '+' ∨ d = '-' then ([d], r4) else (([] : List Char), d :: r4)
        | [] => ([], [])
      match takeDigits r3 with
      | ([], _) => none
      | (ds, rem) => some (c :: sign ++ ds, rem)
    else some ([], c :: r2)
  | [] => some ([], [])

/-- JSON number lexeme: optional minus, digits, optional fraction, optional
exponent. -/
def parseNumber (cs : List Char) : Option (List Char × List Char) :=
  let (neg, cs1) :=
    match cs with
    | c :: rest => if c = '-' then (['-'], rest) else (([] : List Char), c :: rest)
    | [] => ([], [])
  match takeDigits cs1 with
  | ([], _) => none
  | (ds, rem) =>
    match parseFracPart rem with
    | none => none
    | some (fs, rem2) =>
      match parseExpPart rem2 with
      | none => none
      | some (es, rem3) => some (neg ++ ds ++ fs ++ es, rem3)

mutual

/-- Fuel driven recursive descent parser modelling json.Unmarshal into an
untyped Go value for the JSON subset this program meets. -/
def parseValue : Nat → List Char → Option (Json × List Char)
  | 0, _ => none
  | fuel + 1, cs =>
    match skipWs cs with
    | [] => none
    | c :: rest =>
      if c = quoteChar then
        match parseStrChars rest with
        | some (sc, rem) => some (.str (String.mk sc), rem)
        | none => none
      else if c = '[' then
        match skipWs rest with
        | c2 :: rem2 =>
          if c2 = ']' then some (.arr [], rem2)
          else
            match parseItems fuel (c2 :: rem2) with
            | some (xs, rem3) => some (.arr xs, rem3)
            | none => none
        | [] => none
      else if c = lbraceChar then
        match skipWs rest with
        | c2 :: rem2 =>
          if c2 = rbraceChar then some (.obj [], rem2)
          else
            match parseFields fuel (c2 :: rem2) with
            | some (fs, rem3) => some (.obj fs, rem3)
            | none => none
        | [] => none
      else
        match c :: rest with
        | 'n' :: 'u' :: 'l' :: 'l' :: rem => some (.null, rem)
        | 't' :: 'r' :: 'u' :: 'e' :: rem => some (.bool true, rem)
        | 'f' :: 'a' :: 'l' :: 's' :: 'e' :: rem => some (.bool false, rem)
        | other =>
          match parseNumber other with
          | some (ds, rem) => some (.num (String.mk ds), rem)
          | none => none

/-- Comma separated JSON values up to the closing square bracket. -/
def parseItems : Nat → List Char → Option (List Json × List Char)
  | 0, _ => none
  | fuel + 1, cs =>
    match parseValue fuel cs with
    | some (v, rem) =>
      match skipWs rem with
      | c :: rem2 =>
        if c = ',' then
          match parseItems fuel rem2 with
          | some (xs, rem3) => some (v :: xs, rem3)
          | none => none
        else if c = ']' then some ([v], rem2)
        else none
      | [] => none
    | none => none

/-- Comma separated key value pairs up to the closing curly brace. -/
def parseFields : Nat → List Char → Option (List (String × Json) × List Char)
  | 0, _ => none
  | fuel + 1, cs =>
    match skipWs cs with
    | c :: rest =>
      if c = quoteChar then
        match parseStrChars rest with
        | some (kc, rem) =>
          match skipWs rem with
          | c2 :: rem2 =>
            if c2 = ':' then
              match parseValue fuel rem2 with
              | some (v, rem3) =>
                match skipWs rem3 with
                | c3 :: rem4 =>
                  if c3 = ',' then
                    match parseFields fuel rem4 with
                    | some (fs, rem5) => some (insertField (String.mk kc) v fs, rem5)
                    | none => none
                  else if c3 = rbraceChar then some ([(String.mk kc, v)], rem4)
                  else none
                | [] => none
              | none => none
            else none
          | [] => none
        | none => none
      else none
    | [] => none

end

/-- Escaping of the characters of a JSON string for serialization, the inverse
of the escapes accepted by the parser model. -/
def escapeChars : List Char → List Char
  | [] => []
  | c :: rest =>
    if c = quoteChar then backslashChar :: quoteChar :: escapeChars rest
    else if c = backslashChar then backslashChar :: backslashChar :: escapeChars rest
    else if c = Char.ofNat 10 then backslashChar :: 'n' :: escapeChars rest
    else if c = Char.ofNat 9 then backslashChar :: 't' :: escapeChars rest
    else if c = Char.ofNat 13 then backslashChar :: 'r' :: escapeChars rest
    else c :: escapeChars rest

mutual

/-- Model of json.Marshal on the modelled value type: object fields are emitted
in their stored key order, which the parser keeps sorted, matching the
canonical output Go produces for maps. -/
def Json.serialize : Json → String
  | .null => "null"
  | .bool b => if b then "true" else "false"
  | .num lexeme => lexeme
  | .str s => String.mk (quoteChar :: (escapeChars s.data ++ [quoteChar]))
  | .arr items => "[" ++ serializeItems items ++ "]"
  | .obj fields => "\x7b" ++ serializeFields fields ++ "\x7d"

/-- Serialization of the items of a JSON array. -/
def serializeItems : List Json → String
  | [] => ""
  | [x] => Json.serialize x
  | x :: y :: rest => Json.serialize x ++ "," ++ serializeItems (y :: rest)

/-- Serialization of the fields of a JSON object. -/
def serializeFields : List (String × Json) → String
  | [] => ""
  | [(k, v)] =>
    String.mk (quoteChar :: (escapeChars k.data ++ [quoteChar])) ++ ":" ++ Json.serialize v
  | (k, v) :: f :: rest =>
    String.mk (quoteChar :: (escapeChars k.data ++ [quoteChar])) ++ ":" ++ Json.serialize v
      ++ "," ++ serializeFields (f :: rest)

end

/-- Model of json.Unmarshal into an untyped value: parse one JSON value and
require only trailing whitespace after it. -/
def Json.parse (s : String) : Option Json :=
  match parseValue (2 * s.length + 2) s.data with
  | some (v, rem) => if skipWs rem = [] then some v else none
  | none => none

/-- Extraction of the raw inner text of the first element with the given tag
name and no attributes, the only markup shape this program reads. The
character data of a leaf element is afterwards entity decoded separately, as
the Go package encoding/xml decodes entity references in character data before
handing the text to the caller. -/
def extractElement (s tag : String) : Option String :=
  match goSplit s ("<" ++ tag ++ ">") with
  | _ :: afterOpen :: _ =>
    match goSplit afterOpen ("</" ++ tag ++ ">") with
    | inner :: _ :: _ => some inner
    | _ => none
  | _ => none

/-- Splitting of an entity reference body at the first semicolon, failing when
no semicolon follows. -/
def splitAtSemicolon : List Char → Option (List Char × List Char)
  | [] => none
  | c :: rest =>
    if c = ';' then some ([], rest)
    else
      match splitAtSemicolon rest with
      | some (name, rem) => some (c :: name, rem)
      | none => none

/-- Accumulating value of a decimal digit run, failing on a non digit. -/
def digitsToNatAux (acc : Nat) : List Char → Option Nat
  | [] => some acc
  | c :: rest =>
    if c.isDigit then digitsToNatAux (acc * 10 + (c.toNat - 48)) rest
    else none

/-- Value of one hexadecimal digit. -/
def hexDigitVal (c : Char) : Option Nat :=
  if c.isDigit then some (c.toNat - 48)
  else if 97 ≤ c.toNat ∧ c.toNat ≤ 102 then some (c.toNat - 87)
  else if 65 ≤ c.toNat ∧ c.toNat ≤ 70 then some (c.toNat - 55)
  else none

/-- Accumulating value of a hexadecimal digit run, failing on a non digit. -/
def hexToNatAux (acc : Nat) : List Char → Option Nat
  | [] => some acc
  | c :: rest =>
    match hexDigitVal c with
    | some v => hexToNatAux (acc * 16 + v) rest
    | none => none

/-- Character denoted by a numeric character reference body, decimal or
hexadecimal, failing on an empty body, a bad digit or an invalid code point. -/
def numericCharRef : List Char → Option Char
  | [] => none
  | 'x' :: rest =>
    match rest with
    | [] => none
    | _ =>
      match hexToNatAux 0 rest with
      | some n => if n < 55296 ∨ (57343 < n ∧ n < 1114112) then some (Char.ofNat n) else none
      | none => none
  | body =>
    match digitsToNatAux 0 body with
    | some n => if n < 55296 ∨ (57343 < n ∧ n < 1114112) then some (Char.ofNat n) else none
    | none => none

/-- Character denoted by an entity reference name: the five predefined XML
entities and numeric references, exactly the set encoding/xml resolves in
strict mode with no custom entity map; anything else is an error. -/
def entityValue : List Char → Option Char
  | ['a', 'm', 'p'] => some '&'
  | ['l', 't'] => some '<'
  | ['g', 't'] => some '>'
  | ['q', 'u', 'o', 't'] => some quoteChar
  | ['a', 'p', 'o', 's'] => some (Char.ofNat 39)
  | '#' :: body => numericCharRef body
  | _ => none

/-- Fuel driven model of the entity decoding encoding/xml performs on the
character data of an element: every ampersand must start a resolvable entity
reference closed by a semicolon, otherwise unmarshalling errors; with fuel at
least the length of the list the fuel never runs out. -/
def decodeChardataFuel : Nat → List Char → Option (List Char)
  | _, [] => some []
  | 0, _ :: _ => none
  | fuel + 1, c :: rest =>
    if c = '&' then
      match splitAtSemicolon rest with
      | some (name, rem) =>
        match entityValue name with
        | some ch =>
          match decodeChardataFuel fuel rem with
          | some out => some (ch :: out)
          | none => none
        | none => none
      | none => none
    else
      match decodeChardataFuel fuel rest with
      | some out => some (c :: out)
      | none => none

/-- Entity decoding of the character data of a leaf element, as performed by
encoding/xml before the decoded text reaches the Go program. -/
def decodeXmlChardata (s : String) : Option String :=
  (decodeChardataFuel s.data.length s.data).map String.mk

/-- Decoded text of a child element: a missing child keeps the zero value of
the target field, a present child has its character data entity decoded, and
a decoding failure is an unmarshalling error. -/
def childText (inner tag : String) : Option String :=
  match extractElement inner tag with
  | some raw => decodeXmlChardata raw
  | none => some ""

/-- Embedding of the EntitlementRefXML structure, main.go lines 47 to 52. -/
structure EntitlementRefXML where
  src : String
  id : String
  param : String
deriving DecidableEq

/-- Model of xml.Unmarshal into EntitlementRefXML: requires a ref root element
and takes the entity decoded src, id and param child texts, a missing child
giving the empty string; a missing root or a character data error is an
unmarshalling error. -/
def xmlUnmarshalRef (s : String) : Option EntitlementRefXML :=
  match extractElement s "ref" with
  | some inner =>
    match childText inner "src", childText inner "id", childText inner "param" with
    | some src2, some id2, some param2 => some { src := src2, id := id2, param := param2 }
    | _, _, _ => none
  | none => none

/-- Columns of viz_resources derived from the composite attribute
nrfEntitlementRef, main.go lines 563 to 565. -/
structure EntitlementFields where
  entitlement_driver : String
  entitlement_status : String
  entitlement_xml : String
  entitlement_xml_src : String
  entitlement_xml_id : String
  entitlement_xml_param_id : String
  entitlement_xml_param_id2 : String
  entitlement_xml_param_id3 : String
deriving DecidableEq

/-- Lowercasing of a string for the case insensitive field matching of
json.Unmarshal into a structure. -/
def lowerStr (s : String) : String :=
  String.mk (s.data.map Char.toLower)

/-- Field resolution of json.Unmarshal into a structure: an exact key match is
preferred, otherwise the first case insensitive match is taken. -/
def structFieldLookup (fields : List (String × Json)) (k : String) : Option Json :=
  match fields.lookup k with
  | some v => some v
  | none =>
    match fields.filter (fun p => decide (lowerStr p.1 = lowerStr k)) with
    | (_, v) :: _ => some v
    | [] => none

/-- Decoding of one string field of the target structure: an absent field or a
JSON null keeps the zero value, a string is taken, and any other value type is
an unmarshalling type error. -/
def decodeStrField (fields : List (String × Json)) (k : String) : Option String :=
  match structFieldLookup fields k with
  | none => some ""
  | some (Json.str v) => some v
  | some Json.null => some ""
  | some _ => none

/-- Model of json.Unmarshal of the param text into the EntitlementParamJSON
structure, main.go lines 55 to 59: the text must parse as a JSON object, or be
null, and the fields ID, ID2 and ID3 are matched case insensitively and must
be strings when present; any failure is an error, which makes the caller fall
back to storing the param text verbatim. -/
def unmarshalEntitlementParam (s : String) : Option (String × String × String) :=
  match Json.parse s with
  | some (Json.obj fields) =>
    match decodeStrField fields "ID", decodeStrField fields "ID2", decodeStrField fields "ID3" with
    | some a, some b, some c => some (a, b, c)
    | _, _, _ => none
  | some Json.null => some ("", "", "")
  | _ => none

/-- Embedding of the entitlement reference decoding inside syncResources,
main.go lines 562 to 603: split on the hash sign into at most three parts
filling driver, status and the XML fragment in order; a nonempty XML fragment
is unmarshalled, on success src and id are taken and a nonempty param text is
parsed as JSON with keys ID, ID2 and ID3, a param text that is not a JSON
object being stored verbatim in the first parameter field; every failure
leaves the affected derived fields empty. -/
def decodeEntitlementRef (nrfEntitlementRef : String) : EntitlementFields :=
  let refParts := goSplitN3 nrfEntitlementRef "#"
  let driver := if 0 < refParts.length then refParts.getD 0 "" else ""
  let status := if 1 < refParts.length then refParts.getD 1 "" else ""
  let xmlPart := if 2 < refParts.length then refParts.getD 2 "" else ""
  let base : EntitlementFields :=
    { entitlement_driver := driver
      entitlement_status := status
      entitlement_xml := xmlPart
      entitlement_xml_src := ""
      entitlement_xml_id := ""
      entitlement_xml_param_id := ""
      entitlement_xml_param_id2 := ""
      entitlement_xml_param_id3 := "" }
  if xmlPart ≠ "" then
    match xmlUnmarshalRef xmlPart with
    | some ref =>
      let withXml := { base with
        entitlement_xml_src := ref.src
        entitlement_xml_id := ref.id }
      if ref.param ≠ "" then
        match unmarshalEntitlementParam ref.param with
        | some (a, b, c) =>
          { withXml with
            entitlement_xml_param_id := a
            entitlement_xml_param_id2 := b
            entitlement_xml_param_id3 := c }
        | none => { withXml with entitlement_xml_param_id := ref.param }
      else withXml
    | none => base
  else base

/-- Embedding of the entity substitution in syncAssociations, main.go lines 699
to 701: exactly the three entities for quote, less than and greater than are
replaced, in that order, and no other entity is touched. -/
def unescapeValueText (value : String) : String :=
  goReplaceAll
    (goReplaceAll
      (goReplaceAll value "&quot;" (String.singleton quoteChar))
      "&lt;" "<")
    "&gt;" ">"

/-- Model of xml.Unmarshal into DynamicParmValsXML, main.go lines 62 to 65 and
697: requires a parameter root element and yields the entity decoded inner
text of its value child, the empty string when that child is missing; a
missing root or a character data error is an unmarshalling error. -/
def xmlUnmarshalParameterValue (s : String) : Option String :=
  match extractElement s "parameter" with
  | some inner =>
    match extractElement inner "value" with
    | some raw => decodeXmlChardata raw
    | none => some ""
  | none => none

/-- Embedding of the dynamic parameter decoding in syncAssociations, main.go
lines 693 to 712: for a nonempty attribute, unmarshal the XML, which already
entity decodes the value text, then apply the three explicit substitutions,
parse the result as JSON and reserialize it on success; on any failure the
derived field stays empty. -/
def decodeDynamicParmVals (nrfDynamicParmVals : String) : String :=
  if nrfDynamicParmVals ≠ "" then
    match xmlUnmarshalParameterValue nrfDynamicParmVals with
    | some valueText =>
      match Json.parse (unescapeValueText valueText) with
      | some j => Json.serialize j
      | none => ""
    | none => ""
  else ""

/-- Directory entry for a role, holding the attribute values fetched in
syncRoles, main.go line 399; the single valued attributes are the results of
GetAttributeValue, the multi valued ones of GetAttributeValues. -/
structure RoleEntry where
  dn : String
  nrfRoleLevel : String
  nrfLocalizedNames : String
  nrfLocalizedDescrs : String
  nrfRoleCategoryKey : List String
  nrfParentRoles : List String
deriving DecidableEq

/-- Row of the viz_roles table, main.go lines 269 to 280. The two localized
columns hold the JSON marshalled mapping, represented here by the mapping
itself, which determines that JSON text uniquely. Timestamps are seconds. -/
structure RoleRow where
  dn : String
  nrfRoleLevel : String
  nrfLocalizedNames : List (String × String)
  nrfLocalizedDescrs : List (String × String)
  nrfRoleCategoryKey : String
  created_at : Int
  updated_at : Int
  is_deleted : Bool
deriving DecidableEq

/-- Row built from a role entry at watermark t, the VALUES arm of the role
upsert, main.go lines 418 to 428 and 437 to 452, including the join of the
multi valued category key attribute. -/
def mkRoleRow (e : RoleEntry) (t : Int) : RoleRow :=
  { dn := e.dn
    nrfRoleLevel := e.nrfRoleLevel
    nrfLocalizedNames := parseLocalizedAttributes e.nrfLocalizedNames
    nrfLocalizedDescrs := parseLocalizedAttributes e.nrfLocalizedDescrs
    nrfRoleCategoryKey :=
      if 0 < e.nrfRoleCategoryKey.length then goJoin "|" e.nrfRoleCategoryKey else ""
    created_at := t
    updated_at := t
    is_deleted := false }

/-- Action of the ON CONFLICT arm of the role upsert on an existing row: every
data column is replaced from the excluded row, updated_at is stamped with the
watermark, is_deleted is cleared and created_at is kept. -/
def roleUpdRow (e : RoleEntry) (t : Int) (r : RoleRow) : RoleRow :=
  { mkRoleRow e t with created_at := r.created_at }

/-- Embedding of the SQL upsert keyed by dn on viz_roles. -/
def upsertRole (e : RoleEntry) (t : Int) (tbl : List RoleRow) : List RoleRow :=
  if tbl.any (fun r => decide (r.dn = e.dn)) then
    tbl.map (fun r => if r.dn = e.dn then roleUpdRow e t r else r)
  else tbl ++ [mkRoleRow e t]

/-- Directory entry for a resource, main.go line 506. -/
structure ResourceEntry where
  dn : String
  nrfLocalizedNames : String
  nrfLocalizedDescrs : String
  nrfCategoryKey : String
  nrfAllowMulti : String
  nrfEntitlementRef : String
deriving DecidableEq

/-- Row of the viz_resources table, main.go lines 297 to 316. -/
structure ResourceRow where
  dn : String
  nrfLocalizedNames : List (String × String)
  nrfLocalizedDescrs : List (String × String)
  nrfCategoryKey : String
  nrfAllowMulti : String
  entitlement_driver : String
  entitlement_status : String
  entitlement_xml : String
  entitlement_xml_src : String
  entitlement_xml_id : String
  entitlement_xml_param_id : String
  entitlement_xml_param_id2 : String
  entitlement_xml_param_id3 : String
  created_at : Int
  updated_at : Int
  is_deleted : Bool
deriving DecidableEq

/-- Row built from a resource entry at watermark t, the VALUES arm of the
resource upsert, main.go lines 523 to 545 and 554 to 625. -/
def mkResourceRow (e : ResourceEntry) (t : Int) : ResourceRow :=
  let f := decodeEntitlementRef e.nrfEntitlementRef
  { dn := e.dn
    nrfLocalizedNames := parseLocalizedAttributes e.nrfLocalizedNames
    nrfLocalizedDescrs := parseLocalizedAttributes e.nrfLocalizedDescrs
    nrfCategoryKey := e.nrfCategoryKey
    nrfAllowMulti := e.nrfAllowMulti
    entitlement_driver := f.entitlement_driver
    entitlement_status := f.entitlement_status
    entitlement_xml := f.entitlement_xml
    entitlement_xml_src := f.entitlement_xml_src
    entitlement_xml_id := f.entitlement_xml_id
    entitlement_xml_param_id := f.entitlement_xml_param_id
    entitlement_xml_param_id2 := f.entitlement_xml_param_id2
    entitlement_xml_param_id3 := f.entitlement_xml_param_id3
    created_at := t
    updated_at := t
    is_deleted := false }

/-- Action of the ON CONFLICT arm of the resource upsert on an existing row:
every data column replaced, updated_at stamped, is_deleted cleared, created_at
kept. -/
def resourceUpdRow (e : ResourceEntry) (t : Int) (r : ResourceRow) : ResourceRow :=
  { mkResourceRow e t with created_at := r.created_at }

/-- Embedding of the SQL upsert keyed by dn on viz_resources. -/
def upsertResource (e : ResourceEntry) (t : Int) (tbl : List ResourceRow) : List ResourceRow :=
  if tbl.any (fun r => decide (r.dn = e.dn)) then
    tbl.map (fun r => if r.dn = e.dn then resourceUpdRow e t r else r)
  else tbl ++ [mkResourceRow e t]

/-- Directory entry for an association, main.go line 643. -/
structure AssocEntry where
  dn : String
  nrfRole : String
  nrfResource : String
  nrfDynamicParmVals : String
  nrfStatus : String
  createTimestamp : String
  modifyTimestamp : String
deriving DecidableEq

/-- Row of the viz_roles_resources table, main.go lines 321 to 335. -/
structure AssocRow where
  dn : String
  nrfRole : String
  nrfResource : String
  nrfDynamicParmVals : String
  nrfdynamicparmvals_value_json : String
  nrfStatus : String
  createTimestamp : String
  modifyTimestamp : String
  created_at : Int
  updated_at : Int
  is_deleted : Bool
deriving DecidableEq

/-- Row built from an association entry at watermark t, the VALUES arm of the
association upsert, main.go lines 660 to 714; the raw attribute is stored
unmodified next to the derived JSON column. -/
def mkAssocRow (e : AssocEntry) (t : Int) : AssocRow :=
  { dn := e.dn
    nrfRole := e.nrfRole
    nrfResource := e.nrfResource
    nrfDynamicParmVals := e.nrfDynamicParmVals
    nrfdynamicparmvals_value_json := decodeDynamicParmVals e.nrfDynamicParmVals
    nrfStatus := e.nrfStatus
    createTimestamp := e.createTimestamp
    modifyTimestamp := e.modifyTimestamp
    created_at := t
    updated_at := t
    is_deleted := false }

/-- Action of the ON CONFLICT arm of the association upsert on an existing row. -/
def assocUpdRow (e : AssocEntry) (t : Int) (r : AssocRow) : AssocRow :=
  { mkAssocRow e t with created_at := r.created_at }

/-- Embedding of the SQL upsert keyed by dn on viz_roles_resources. -/
def upsertAssoc (e : AssocEntry) (t : Int) (tbl : List AssocRow) : List AssocRow :=
  if tbl.any (fun r => decide (r.dn = e.dn)) then
    tbl.map (fun r => if r.dn = e.dn then assocUpdRow e t r else r)
  else tbl ++ [mkAssocRow e t]

/-- State of the four tables created in createTables, main.go lines 266 to 340. -/
structure DB where
  roles : List RoleRow
  roleParents : List (String × String)
  resources : List ResourceRow
  assocs : List AssocRow
deriving DecidableEq

/-- Phase 1 of syncRoles: the role upsert folded over the fetched entries in
order, main.go lines 437 to 458. -/
def rolesPhase1 (entries : List RoleEntry) (t : Int) (tbl : List RoleRow) : List RoleRow :=
  entries.foldl (fun acc e => upsertRole e t acc) tbl

/-- Presence of a dn in the role table, as checked by the two foreign key
constraints of viz_roles_parents, main.go lines 286 to 295. -/
def dnPresent (tbl : List RoleRow) (d : String) : Bool :=
  tbl.any (fun r => decide (r.dn = d))

/-- Child and parent pairs derived from the fetched entries in insertion order,
main.go lines 479 to 492. -/
def rolePairs (entries : List RoleEntry) : List (String × String) :=
  (entries.map (fun e => e.nrfParentRoles.map (fun p => (e.dn, p)))).flatten

/-- Sequential insertion of parent pairs into the emptied junction table with
ON CONFLICT DO NOTHING and the two foreign key checks; none models the first
statement error, which aborts the transaction, main.go lines 469 to 492. -/
def insertParentPairs (roles : List RoleRow) :
    List (String × String) → List (String × String) → Option (List (String × String))
  | acc, [] => some acc
  | acc, (c, p) :: rest =>
    if dnPresent roles c && dnPresent roles p then
      insertParentPairs roles (if (c, p) ∈ acc then acc else acc ++ [(c, p)]) rest
    else none

/-- Embedding of syncRoles, main.go lines 393 to 497: one transaction holding
the role upserts, the full delete of viz_roles_parents and the sequential pair
inserts; any statement failure rolls the whole transaction back, leaving the
database unchanged. -/
def syncRoles (entries : List RoleEntry) (t : Int) (db : DB) : DB :=
  let roles2 := rolesPhase1 entries t db.roles
  match insertParentPairs roles2 [] (rolePairs entries) with
  | some prs => { db with roles := roles2, roleParents := prs }
  | none => db

/-- Resource upsert folded over the fetched entries in order, main.go lines
554 to 631. -/
def resourcesPhase (entries : List ResourceEntry) (t : Int) (tbl : List ResourceRow) :
    List ResourceRow :=
  entries.foldl (fun acc e => upsertResource e t acc) tbl

/-- Embedding of syncResources, main.go lines 500 to 634: one transaction of
resource upserts; no statement of this transaction can violate a constraint of
the schema, so the transaction always commits in this model. -/
def syncResources (entries : List ResourceEntry) (t : Int) (db : DB) : DB :=
  { db with resources := resourcesPhase entries t db.resources }

/-- Association upsert folded over the fetched entries in order, main.go lines
685 to 720. -/
def assocsPhase (entries : List AssocEntry) (t : Int) (tbl : List AssocRow) : List AssocRow :=
  entries.foldl (fun acc e => upsertAssoc e t acc) tbl

/-- Embedding of syncAssociations, main.go lines 637 to 723, analogous to
syncResources. -/
def syncAssociations (entries : List AssocEntry) (t : Int) (db : DB) : DB :=
  { db with assocs := assocsPhase entries t db.assocs }

/-- Model of time.AddDate applied with a day offset, one day being 86400
seconds. -/
def addDays (t : Int) (d : Int) : Int := t + d * 86400

/-- Mark step on viz_roles: soft delete every row strictly older than the
watermark, main.go lines 366 to 376; only is_deleted is written. -/
def markRoles (t : Int) (tbl : List RoleRow) : List RoleRow :=
  tbl.map (fun r => if r.updated_at < t then { r with is_deleted := true } else r)

/-- Mark step on viz_resources. -/
def markResources (t : Int) (tbl : List ResourceRow) : List ResourceRow :=
  tbl.map (fun r => if r.updated_at < t then { r with is_deleted := true } else r)

/-- Mark step on viz_roles_resources. -/
def markAssocs (t : Int) (tbl : List AssocRow) : List AssocRow :=
  tbl.map (fun r => if r.updated_at < t then { r with is_deleted := true } else r)

/-- Purge step on viz_roles: delete the rows both soft deleted and strictly
older than the retention cutoff, main.go lines 379 to 389. -/
def purgeRoles (cutoff : Int) (tbl : List RoleRow) : List RoleRow :=
  tbl.filter (fun r => !(r.is_deleted && decide (r.updated_at < cutoff)))

/-- Purge step on viz_resources. -/
def purgeResources (cutoff : Int) (tbl : List ResourceRow) : List ResourceRow :=
  tbl.filter (fun r => !(r.is_deleted && decide (r.updated_at < cutoff)))

/-- Purge step on viz_roles_resources. -/
def purgeAssocs (cutoff : Int) (tbl : List AssocRow) : List AssocRow :=
  tbl.filter (fun r => !(r.is_deleted && decide (r.updated_at < cutoff)))

/-- Embedding of markAndPurge, main.go lines 361 to 390: first every row of the
three tables not touched at the watermark is soft deleted, then the rows soft
deleted and older than the retention cutoff are removed; removing a viz_roles
row cascades to the viz_roles_parents pairs naming its dn, by the ON DELETE
CASCADE clauses of the junction table. -/
def markAndPurge (t : Int) (purgeAgeInDays : Int) (db : DB) : DB :=
  let mr := markRoles t db.roles
  let ms := markResources t db.resources
  let ma := markAssocs t db.assocs
  let cutoff := addDays t (-purgeAgeInDays)
  let purgedDns := (mr.filter (fun r => r.is_deleted && decide (r.updated_at < cutoff))).map RoleRow.dn
  { roles := purgeRoles cutoff mr
    roleParents :=
      db.roleParents.filter (fun p => !(decide (p.1 ∈ purgedDns) || decide (p.2 ∈ purgedDns)))
    resources := purgeResources cutoff ms
    assocs := purgeAssocs cutoff ma }

/-- Erasure of the updated_at column of a role row, used to state that an
operation leaves every other column unchanged. -/
def stripUpd (r : RoleRow) : RoleRow := { r with updated_at := 0 }

/-- Order preserving duplicate dropping append of pairs, the value computed by
insertParentPairs when every foreign key check passes. -/
def appendPairsNoDup (acc ps : List (String × String)) : List (String × String) :=
  ps.foldl (fun a q => if q ∈ a then a else a ++ [q]) acc

/-- Empty database, the state right after createTables on a fresh schema. -/
def emptyDb : DB := { roles := [], roleParents := [], resources := [], assocs := [] }

/-- Concrete role entry whose parent reference names a dn that is not part of
the result set, used to instantiate theorems at explicit inputs. -/
def roleEntryR1 : RoleEntry :=
  { dn := "R1", nrfRoleLevel := "10", nrfLocalizedNames := "en~Hello|de~Hallo"
    nrfLocalizedDescrs := "", nrfRoleCategoryKey := ["c1", "c2"], nrfParentRoles := ["R2"] }

/-- Concrete role entry with a self parent, whose pair insert satisfies both
foreign keys. -/
def roleEntrySelf : RoleEntry :=
  { roleEntryR1 with dn := "R3", nrfParentRoles := ["R3"] }

/-- Concrete stale role row, last observed ten days before watermark zero. -/
def staleRoleRow : RoleRow :=
  { dn := "R1", nrfRoleLevel := "", nrfLocalizedNames := [], nrfLocalizedDescrs := []
    nrfRoleCategoryKey := "", created_at := addDays 0 (-10), updated_at := addDays 0 (-10)
    is_deleted := false }

/-- Concrete database holding the stale role row and a parent pair naming it. -/
def staleDb : DB :=
  { roles := [staleRoleRow], roleParents := [("R1", "R1")], resources := [], assocs := [] }

/-- Embedding of one full run, main.go lines 174 to 183: the three entity
synchronizers followed by the lifecycle pass, all sharing the single watermark
captured at run start. -/
def fullRun (re : List RoleEntry) (se : List ResourceEntry) (ae : List AssocEntry)
    (t : Int) (purgeAgeInDays : Int) (db : DB) : DB :=
  markAndPurge t purgeAgeInDays (syncAssociations ae t (syncResources se t (syncRoles re t db)))

/-- Helper for C6: the guarded fold of the embedding and the filter then fold
of the specification reading agree on every segment list, because the guard on
containing a tilde agrees with the shape of the two limit split. -/
theorem locFoldAgree (parts : List String) (acc : List (String × String)) :
    parts.foldl
      (fun result part =>
        if goContains part "~" then
          match goSplitN2 part "~" with
          | [a, b] => mapInsert result a b
          | _ => result
        else result) acc
    = (parts.filterMap
        (fun part =>
          match goSplitN2 part "~" with
          | [a, b] => some (a, b)
          | _ => none)).foldl (fun m kv => mapInsert m kv.1 kv.2) acc := by
  induction parts generalizing acc with
  | nil => rfl
  | cons part rest ih =>
    rcases h : goSplit part "~" with _ | ⟨x, _ | ⟨y, zs⟩⟩
    · have hc : goContains part "~" = false := by simp [goContains, h]
      have hs : goSplitN2 part "~" = [] := by simp [goSplitN2, h]
      simpa [hc, hs] using ih acc
    · have hc : goContains part "~" = false := by simp [goContains, h]
      have hs : goSplitN2 part "~" = [x] := by simp [goSplitN2, h]
      simpa [hc, hs] using ih acc
    · have hc : goContains part "~" = true := by simp [goContains, h]
      have hs : goSplitN2 part "~" = [x, goJoin "~" (y :: zs)] := by
        simp [goSplitN2, h]
      simpa [hc, hs] using ih (mapInsert acc x (goJoin "~" (y :: zs)))

/-- C6: for every input string the localized text decoder behaves as the
specification describes it, namely it splits on the pipe character, splits
each segment on the first tilde, drops segments containing no tilde, and folds
the pairs into a mapping in which the last occurrence of a language code wins;
the empty string yields the empty mapping and never an error, the sample
string with the two languages yields exactly the two expected bindings, and a
duplicated language code keeps the last value. -/
theorem claim_C6 :
    (∀ s, parseLocalizedAttributes s = localizedTextSpec s) ∧
      parseLocalizedAttributes "" = [] ∧
      parseLocalizedAttributes "en~Hello|de~Hallo" = [("en", "Hello"), ("de", "Hallo")] ∧
      parseLocalizedAttributes "en~A|en~B" = [("en", "B")] := by
  refine ⟨fun s => ?_, by decide, by decide, by decide⟩
  unfold parseLocalizedAttributes localizedTextSpec
  by_cases hs : s = ""
  · simp [hs]
  · rw [if_neg hs, if_neg hs]
    exact locFoldAgree (goSplit s "|") []

/-- C7: for every entitlement reference string the split yields at most three
parts, and whenever the string holds fewer than two hash delimiters, that is
the plain split has at most two parts, decoding never errors: the driver field
receives the first part, the status field receives the second part exactly
when it exists, and every XML derived field is left empty. -/
theorem claim_C7 :
    (∀ s, (goSplitN3 s "#").length ≤ 3) ∧
    (∀ s, (goSplit s "#").length ≤ 2 →
      (decodeEntitlementRef s).entitlement_driver = (goSplit s "#").headD "" ∧
      (decodeEntitlementRef s).entitlement_status =
        (if (goSplit s "#").length = 2 then (goSplit s "#").getD 1 "" else "") ∧
      (decodeEntitlementRef s).entitlement_xml = "" ∧
      (decodeEntitlementRef s).entitlement_xml_src = "" ∧
      (decodeEntitlementRef s).entitlement_xml_id = "" ∧
      (decodeEntitlementRef s).entitlement_xml_param_id = "" ∧
      (decodeEntitlementRef s).entitlement_xml_param_id2 = "" ∧
      (decodeEntitlementRef s).entitlement_xml_param_id3 = "") := by
  constructor
  · intro s
    unfold goSplitN3
    rcases goSplit s "#" with _ | ⟨a, _ | ⟨b, _ | ⟨c, rest⟩⟩⟩ <;> simp
  · intro s h
    rcases hsp : goSplit s "#" with _ | ⟨a, _ | ⟨b, _ | ⟨c, rest⟩⟩⟩
    · simp [decodeEntitlementRef, goSplitN3, hsp]
    · simp [decodeEntitlementRef, goSplitN3, hsp]
    · simp [decodeEntitlementRef, goSplitN3, hsp]
    · rw [hsp] at h
      simp at h

/-- Witness for C7 at the sample input of the specification: the input with no
hash delimiter decodes to the bare driver name. -/
theorem claim_C7_witness :
    (goSplit "driverOnly" "#").length ≤ 2 ∧
      (decodeEntitlementRef "driverOnly").entitlement_driver = "driverOnly" ∧
      (decodeEntitlementRef "driverOnly").entitlement_status = "" :=
  ⟨by decide,
    ((claim_C7.2 "driverOnly" (by decide)).1).trans (by decide),
    ((claim_C7.2 "driverOnly" (by decide)).2.1).trans (by decide)⟩

/-- C10: the mark step of the lifecycle pass writes only the is_deleted column
on each of the three tables: erasing is_deleted makes the marked table equal
to the original, and in particular the updated_at column is unchanged, so a
purge deadline is measured from the last observation of a row and not from
the moment it was soft deleted. -/
theorem claim_C10 :
    (∀ (t : Int) (tbl : List RoleRow),
      (markRoles t tbl).map (fun r => { r with is_deleted := false })
        = tbl.map (fun r => { r with is_deleted := false })) ∧
    (∀ (t : Int) (tbl : List RoleRow),
      (markRoles t tbl).map RoleRow.updated_at = tbl.map RoleRow.updated_at) ∧
    (∀ (t : Int) (tbl : List ResourceRow),
      (markResources t tbl).map (fun r => { r with is_deleted := false })
        = tbl.map (fun r => { r with is_deleted := false })) ∧
    (∀ (t : Int) (tbl : List ResourceRow),
      (markResources t tbl).map ResourceRow.updated_at = tbl.map ResourceRow.updated_at) ∧
    (∀ (t : Int) (tbl : List AssocRow),
      (markAssocs t tbl).map (fun r => { r with is_deleted := false })
        = tbl.map (fun r => { r with is_deleted := false })) ∧
    (∀ (t : Int) (tbl : List AssocRow),
      (markAssocs t tbl).map AssocRow.updated_at = tbl.map AssocRow.updated_at) := by
  refine ⟨?_, ?_, ?_, ?_, ?_, ?_⟩ <;>
    (intro t tbl
     simp only [markRoles, markResources, markAssocs]
     rw [List.map_map]
     refine List.map_congr_left ?_
     intro r _
     by_cases h : r.updated_at < t <;> simp [h])

/-- C9: on each of the three tables, an upsert hitting an existing row keeps
the created_at column of that row unchanged while stamping updated_at with the
new watermark and clearing is_deleted; the updated row is a member of the
resulting table. -/
theorem claim_C9 :
    (∀ (e : RoleEntry) (t : Int) (tbl : List RoleRow) (r : RoleRow),
      r ∈ tbl → r.dn = e.dn →
      roleUpdRow e t r ∈ upsertRole e t tbl ∧
        (roleUpdRow e t r).created_at = r.created_at ∧
        (roleUpdRow e t r).updated_at = t ∧
        (roleUpdRow e t r).is_deleted = false) ∧
    (∀ (e : ResourceEntry) (t : Int) (tbl : List ResourceRow) (r : ResourceRow),
      r ∈ tbl → r.dn = e.dn →
      resourceUpdRow e t r ∈ upsertResource e t tbl ∧
        (resourceUpdRow e t r).created_at = r.created_at ∧
        (resourceUpdRow e t r).updated_at = t ∧
        (resourceUpdRow e t r).is_deleted = false) ∧
    (∀ (e : AssocEntry) (t : Int) (tbl : List AssocRow) (r : AssocRow),
      r ∈ tbl → r.dn = e.dn →
      assocUpdRow e t r ∈ upsertAssoc e t tbl ∧
        (assocUpdRow e t r).created_at = r.created_at ∧
        (assocUpdRow e t r).updated_at = t ∧
        (assocUpdRow e t r).is_deleted = false) := by
  refine ⟨?_, ?_, ?_⟩ <;>
    (intro e t tbl r hr hdn
     have hany : tbl.any (fun x => decide (x.dn = e.dn)) = true :=
       List.any_eq_true.mpr ⟨r, hr, by simp [hdn]⟩
     refine ⟨?_, rfl, rfl, rfl⟩
     simp only [upsertRole, upsertResource, upsertAssoc]
     rw [if_pos hany]
     exact List.mem_map.mpr ⟨r, hr, by rw [if_pos hdn]⟩)

/-- Witness for C9 on a concrete role row whose created_at is five while the
new watermark is nine. -/
theorem claim_C9_witness :
    staleRoleRow ∈ [staleRoleRow] ∧ staleRoleRow.dn = roleEntryR1.dn ∧
      roleUpdRow roleEntryR1 9 staleRoleRow ∈ upsertRole roleEntryR1 9 [staleRoleRow] ∧
      (roleUpdRow roleEntryR1 9 staleRoleRow).created_at = staleRoleRow.created_at ∧
      (roleUpdRow roleEntryR1 9 staleRoleRow).updated_at = 9 ∧
      (roleUpdRow roleEntryR1 9 staleRoleRow).is_deleted = false := by
  have h := claim_C9.1 roleEntryR1 9 [staleRoleRow] staleRoleRow (by decide) (by decide)
  exact ⟨by decide, by decide, h.1, h.2.1, h.2.2.1, h.2.2.2⟩

/-- C5: the role synchronizer is atomic. If the parent pair insertion fails,
because some pair references a dn absent from the role table built inside the
transaction, the whole transaction rolls back and the database is exactly the
state from before the synchronizer started, the phase one upserts included;
when every statement succeeds the transaction commits both the upserted role
table and the rebuilt pair table. -/
theorem claim_C5 :
    (∀ (entries : List RoleEntry) (t : Int) (db : DB),
      insertParentPairs (rolesPhase1 entries t db.roles) [] (rolePairs entries) = none →
        syncRoles entries t db = db) ∧
    (∀ (entries : List RoleEntry) (t : Int) (db : DB) (prs : List (String × String)),
      insertParentPairs (rolesPhase1 entries t db.roles) [] (rolePairs entries) = some prs →
        syncRoles entries t db =
          { db with roles := rolesPhase1 entries t db.roles, roleParents := prs }) := by
  constructor
  · intro entries t db h
    simp only [syncRoles, h]
  · intro entries t db prs h
    simp only [syncRoles, h]

/-- Witness for C5: with the single entry whose parent dn R2 is absent from
the result set, the pair insert fails and the synchronizer leaves the empty
database unchanged. -/
theorem claim_C5_witness :
    insertParentPairs (rolesPhase1 [roleEntryR1] 0 emptyDb.roles) [] (rolePairs [roleEntryR1])
        = none ∧
      syncRoles [roleEntryR1] 0 emptyDb = emptyDb :=
  ⟨by decide, claim_C5.1 [roleEntryR1] 0 emptyDb (by decide)⟩

/-- Counterexample for C3 as stated. With the directory returning exactly the
one role R1 whose parent attribute names the absent dn R2, the failing foreign
key check aborts and rolls back the whole role transaction, so after the
synchronization the Role table does not contain R1 at all: starting from the
empty database it is still empty, refuting that the table contains only R1.
The junction table is empty as well. -/
theorem claim_C3_counterexample :
    (syncRoles [roleEntryR1] 1 emptyDb).roles = [] ∧
      (¬ ∃ r ∈ (syncRoles [roleEntryR1] 1 emptyDb).roles, r.dn = "R1") ∧
      (syncRoles [roleEntryR1] 1 emptyDb).roleParents = [] := by decide

/-- C3 amended: when the directory returns exactly one role whose single
parent reference names a dn different from its own, the parent pair insert
fails its foreign key check, which rolls back the entire role transaction;
afterwards the database is unchanged, so starting from the empty database the
Role table is still empty, R1 included, and no RoleParent pair exists; the
failure mode is a rejected insert, never a silent success. -/
theorem claim_C3 :
    ∀ (t : Int) (e : RoleEntry) (p : String),
      e.nrfParentRoles = [p] → p ≠ e.dn →
      insertParentPairs (rolesPhase1 [e] t emptyDb.roles) [] (rolePairs [e]) = none ∧
        syncRoles [e] t emptyDb = emptyDb := by
  intro t e p hp hne
  have hpairs : rolePairs [e] = [(e.dn, p)] := by simp [rolePairs, hp]
  have hroles : rolesPhase1 [e] t emptyDb.roles = [mkRoleRow e t] := by
    simp [rolesPhase1, emptyDb, upsertRole]
  have h1 : dnPresent [mkRoleRow e t] p = false := by
    simp [dnPresent, mkRoleRow]
    exact Ne.symm hne
  have hnone : insertParentPairs [mkRoleRow e t] [] [(e.dn, p)] = none := by
    simp [insertParentPairs, h1]
  refine ⟨by rw [hroles, hpairs]; exact hnone, ?_⟩
  simp only [syncRoles, hroles, hpairs, hnone]

/-- Witness for C3 amended at the concrete sample entry. -/
theorem claim_C3_witness :
    roleEntryR1.nrfParentRoles = ["R2"] ∧ ("R2" : String) ≠ roleEntryR1.dn ∧
      syncRoles [roleEntryR1] 1 emptyDb = emptyDb :=
  ⟨by decide, by decide, (claim_C3 1 roleEntryR1 "R2" (by decide) (by decide)).2⟩

/-- Counterexample for C2 as stated. The claim asserts that a role row ten
days staler than the watermark with a seven day retention survives the first
lifecycle pass in the soft deleted state and is purged only by a second pass;
but markAndPurge first marks and then purges inside the same pass, and the row
meets both conditions at once, so after a single pass the row and the pair
naming its dn are already gone. -/
theorem claim_C2_counterexample :
    (markAndPurge 0 7 staleDb).roles = [] ∧
      (markAndPurge 0 7 staleDb).roleParents = [] := by decide

/-- C2 amended: a Role row with updated_at equal to the watermark minus ten
days and a retention window of seven days is already purged by a single
lifecycle pass, because the mark step soft deletes it and the purge step of
the same pass then removes it, its updated_at lying before the cutoff; every
RoleParent pair naming its dn as child or parent is cascade deleted in the
same pass; no second pass is needed. -/
theorem claim_C2 :
    ∀ (t : Int) (db : DB) (r : RoleRow),
      (db.roles.map RoleRow.dn).Nodup → r ∈ db.roles → r.updated_at = addDays t (-10) →
      (∀ r2 ∈ (markAndPurge t 7 db).roles, r2.dn ≠ r.dn) ∧
      (∀ pr ∈ (markAndPurge t 7 db).roleParents, pr.1 ≠ r.dn ∧ pr.2 ≠ r.dn) := by
  intro t db r hnd hr hu
  have h1 : r.updated_at < t := by rw [hu]; unfold addDays; omega
  have h2 : r.updated_at < addDays t (-7) := by rw [hu]; unfold addDays; omega
  have hgr : (if r.updated_at < t then { r with is_deleted := true } else r)
      = { r with is_deleted := true } := if_pos h1
  have hmem : ({ r with is_deleted := true } : RoleRow) ∈ markRoles t db.roles :=
    List.mem_map.mpr ⟨r, hr, hgr⟩
  have hq : (({ r with is_deleted := true } : RoleRow).is_deleted
      && decide (({ r with is_deleted := true } : RoleRow).updated_at < addDays t (-7)))
      = true := by
    simp [h2]
  have hdns : r.dn ∈ ((markRoles t db.roles).filter
      (fun x => x.is_deleted && decide (x.updated_at < addDays t (-7)))).map RoleRow.dn := by
    exact List.mem_map.mpr ⟨_, List.mem_filter.mpr ⟨hmem, hq⟩, rfl⟩
  constructor
  · intro r2 hr2 hdneq
    have hr2f : r2 ∈ (markRoles t db.roles).filter
        (fun x => !(x.is_deleted && decide (x.updated_at < addDays t (-7)))) := hr2
    rcases List.mem_filter.mp hr2f with ⟨hr2m, hr2q⟩
    rcases List.mem_map.mp hr2m with ⟨r1, hr1, hr1e⟩
    have hdn1 : r2.dn = r1.dn := by
      rw [← hr1e]
      by_cases hc : r1.updated_at < t <;> simp [hc]
    have hr1r : r1 = r := by
      refine List.inj_on_of_nodup_map hnd hr1 hr ?_
      rw [← hdn1, hdneq]
    rw [hr1r, hgr] at hr1e
    rw [← hr1e] at hr2q
    rw [hq] at hr2q
    simp at hr2q
  · intro pr hpr
    have hprf : pr ∈ db.roleParents.filter
        (fun p => !(decide (p.1 ∈ ((markRoles t db.roles).filter
            (fun x => x.is_deleted && decide (x.updated_at < addDays t (-7)))).map RoleRow.dn)
          || decide (p.2 ∈ ((markRoles t db.roles).filter
            (fun x => x.is_deleted && decide (x.updated_at < addDays t (-7)))).map RoleRow.dn))) :=
      hpr
    rcases List.mem_filter.mp hprf with ⟨-, hprq⟩
    simp only [Bool.not_eq_true', Bool.or_eq_false_iff, decide_eq_false_iff_not] at hprq
    constructor
    · intro hc; exact hprq.1 (hc ▸ hdns)
    · intro hc; exact hprq.2 (hc ▸ hdns)

/-- Witness for C2 amended at the concrete stale database. -/
theorem claim_C2_witness :
    (staleDb.roles.map RoleRow.dn).Nodup ∧ staleRoleRow ∈ staleDb.roles ∧
      staleRoleRow.updated_at = addDays 0 (-10) ∧
      (∀ r2 ∈ (markAndPurge 0 7 staleDb).roles, r2.dn ≠ staleRoleRow.dn) :=
  ⟨by decide, by decide, by decide,
    (claim_C2 0 staleDb staleRoleRow (by decide) (by decide) (by decide)).1⟩

/-- Characterization of membership after one role upsert: a member whose dn is
the upserted dn is stamped with the watermark and live, a member with another
dn was already in the table. -/
theorem mem_upsertRole {e : RoleEntry} {t : Int} {tbl : List RoleRow} {r2 : RoleRow}
    (h : r2 ∈ upsertRole e t tbl) :
    (r2.dn = e.dn → r2.updated_at = t ∧ r2.is_deleted = false) ∧
      (r2.dn ≠ e.dn → r2 ∈ tbl) := by
  unfold upsertRole at h
  by_cases hany : tbl.any (fun x => decide (x.dn = e.dn)) = true
  · rw [if_pos hany] at h
    rcases List.mem_map.mp h with ⟨r0, hr0, heq⟩
    by_cases hc : r0.dn = e.dn
    · rw [if_pos hc] at heq
      subst heq
      exact ⟨fun _ => ⟨rfl, rfl⟩, fun hne => absurd rfl hne⟩
    · rw [if_neg hc] at heq
      subst heq
      exact ⟨fun hdn => absurd hdn hc, fun _ => hr0⟩
  · rw [if_neg hany] at h
    rcases List.mem_append.mp h with h2 | h2
    · refine ⟨fun hdn => ?_, fun _ => h2⟩
      exact absurd (List.any_eq_true.mpr ⟨r2, h2, by simp [hdn]⟩) hany
    · have := List.mem_singleton.mp h2
      subst this
      exact ⟨fun _ => ⟨rfl, rfl⟩, fun hne => absurd rfl hne⟩

/-- Characterization of membership after the whole phase one fold: a member
whose dn was fetched is stamped and live, a member whose dn was not fetched
was already in the table, untouched. -/
theorem mem_rolesPhase1 {es : List RoleEntry} {t : Int} {tbl : List RoleRow} {r2 : RoleRow}
    (h : r2 ∈ rolesPhase1 es t tbl) :
    (r2.dn ∈ es.map RoleEntry.dn → r2.updated_at = t ∧ r2.is_deleted = false) ∧
      (r2.dn ∉ es.map RoleEntry.dn → r2 ∈ tbl) := by
  induction es generalizing tbl with
  | nil => exact ⟨fun hm => absurd hm (by simp), fun _ => h⟩
  | cons e rest ih =>
    have h2 : r2 ∈ rolesPhase1 rest t (upsertRole e t tbl) := h
    obtain ⟨ha, hb⟩ := ih h2
    constructor
    · intro hm
      rw [List.map_cons] at hm
      rcases List.mem_cons.mp hm with heq | hm2
      · by_cases hin : r2.dn ∈ rest.map RoleEntry.dn
        · exact ha hin
        · exact (mem_upsertRole (hb hin)).1 heq
      · exact ha hm2
    · intro hm
      rw [List.map_cons] at hm
      have hm2 : r2.dn ∉ rest.map RoleEntry.dn := fun hx => hm (List.mem_cons_of_mem _ hx)
      have hne : r2.dn ≠ e.dn := fun hx => hm (by rw [hx]; exact List.mem_cons_self _ _)
      exact (mem_upsertRole (hb hm2)).2 hne

/-- Effect of one role upsert on dn presence: the upserted dn joins the set of
present dns, which is otherwise unchanged; in particular presence does not
depend on the watermark. -/
theorem dnPresent_upsertRole (e : RoleEntry) (t : Int) (tbl : List RoleRow) (d : String) :
    dnPresent (upsertRole e t tbl) d = (dnPresent tbl d || decide (e.dn = d)) := by
  unfold dnPresent upsertRole
  by_cases hany : tbl.any (fun x => decide (x.dn = e.dn)) = true
  · rw [if_pos hany, List.any_map]
    have hfn : ((fun x : RoleRow => decide (x.dn = d)) ∘
          fun r => if r.dn = e.dn then roleUpdRow e t r else r)
        = fun r : RoleRow => decide (r.dn = d) := by
      funext r
      by_cases hc : r.dn = e.dn
      · simp [Function.comp, hc, roleUpdRow, mkRoleRow]
      · simp [Function.comp, hc]
    rw [hfn]
    by_cases hd : e.dn = d
    · rw [← hd]
      simp [hany]
    · simp [hd]
  · rw [if_neg hany, List.any_append]
    simp [mkRoleRow]

/-- Dn presence after the phase one fold: the fetched dns join the originally
present dns; the result does not depend on the watermark. -/
theorem dnPresent_rolesPhase1 (es : List RoleEntry) (t : Int) (tbl : List RoleRow) (d : String) :
    dnPresent (rolesPhase1 es t tbl) d
      = (dnPresent tbl d || decide (d ∈ es.map RoleEntry.dn)) := by
  induction es generalizing tbl with
  | nil => simp [rolesPhase1]
  | cons e rest ih =>
    have hstep : rolesPhase1 (e :: rest) t tbl = rolesPhase1 rest t (upsertRole e t tbl) := rfl
    rw [hstep, ih, dnPresent_upsertRole]
    have hsw : decide (e.dn = d) = decide (d = e.dn) := by
      by_cases hx : e.dn = d
      · simp [hx]
      · simp [hx, show ¬ d = e.dn from fun hy => hx hy.symm]
    rw [hsw]
    simp [List.mem_cons, Bool.or_assoc]

/-- A successful pair insertion run means every pair passed both foreign key
checks. -/
theorem insertParentPairs_ok {roles : List RoleRow} {ps acc x : List (String × String)}
    (h : insertParentPairs roles acc ps = some x) :
    ∀ pr ∈ ps, dnPresent roles pr.1 = true ∧ dnPresent roles pr.2 = true := by
  induction ps generalizing acc with
  | nil => intro pr hpr; cases hpr
  | cons q rest ih =>
    intro pr hpr
    rcases q with ⟨c, p⟩
    unfold insertParentPairs at h
    by_cases hcond : (dnPresent roles c && dnPresent roles p) = true
    · rw [if_pos hcond] at h
      rcases List.mem_cons.mp hpr with rfl | hpr2
      · simp only [Bool.and_eq_true] at hcond
        exact hcond
      · exact ih h pr hpr2
    · rw [if_neg hcond] at h
      cases h

/-- When every pair passes both foreign key checks the insertion run commits
the duplicate free append of the pairs, independently of the role table. -/
theorem insertParentPairs_of_ok {roles : List RoleRow} {ps : List (String × String)}
    (h : ∀ pr ∈ ps, dnPresent roles pr.1 = true ∧ dnPresent roles pr.2 = true) :
    ∀ acc, insertParentPairs roles acc ps = some (appendPairsNoDup acc ps) := by
  induction ps with
  | nil => intro acc; rfl
  | cons q rest ih =>
    intro acc
    rcases q with ⟨c, p⟩
    have hq := h (c, p) (List.mem_cons_self _ _)
    have hcond : (dnPresent roles c && dnPresent roles p) = true := by
      simp only [Bool.and_eq_true]
      exact hq
    have hrest : ∀ pr ∈ rest, dnPresent roles pr.1 = true ∧ dnPresent roles pr.2 = true :=
      fun pr hpr => h pr (List.mem_cons_of_mem _ hpr)
    unfold insertParentPairs
    rw [if_pos hcond, ih hrest]
    rfl

/-- The pair insertion run only inspects the role table through dn presence. -/
theorem insertParentPairs_congr {roles1 roles2 : List RoleRow}
    (h : ∀ d, dnPresent roles1 d = dnPresent roles2 d) :
    ∀ (acc ps : List (String × String)),
      insertParentPairs roles1 acc ps = insertParentPairs roles2 acc ps := by
  intro acc ps
  induction ps generalizing acc with
  | nil => rfl
  | cons q rest ih =>
    rcases q with ⟨c, p⟩
    unfold insertParentPairs
    rw [h c, h p]
    by_cases hcond : (dnPresent roles2 c && dnPresent roles2 p) = true
    · rw [if_pos hcond, if_pos hcond]
      exact ih _
    · rw [if_neg hcond, if_neg hcond]

/-- The watermark only reaches the updated_at column of an updated row, so the
erased rows agree for any two watermarks. -/
theorem stripUpd_roleUpd (e : RoleEntry) (t1 t2 : Int) (r : RoleRow) :
    stripUpd (roleUpdRow e t1 r) = stripUpd (roleUpdRow e t2 r) := rfl

/-- A member of an upserted table carrying the upserted dn agrees with its own
update image outside the updated_at column. -/
theorem stripUpd_mem_upsertRole {e : RoleEntry} {t : Int} {tbl : List RoleRow} {r2 : RoleRow}
    (h : r2 ∈ upsertRole e t tbl) (hdn : r2.dn = e.dn) :
    stripUpd r2 = stripUpd (roleUpdRow e t r2) := by
  unfold upsertRole at h
  by_cases hany : tbl.any (fun x => decide (x.dn = e.dn)) = true
  · rw [if_pos hany] at h
    rcases List.mem_map.mp h with ⟨r0, hr0, heq⟩
    by_cases hc : r0.dn = e.dn
    · rw [if_pos hc] at heq
      subst heq
      rfl
    · rw [if_neg hc] at heq
      subst heq
      exact absurd hdn hc
  · rw [if_neg hany] at h
    rcases List.mem_append.mp h with h2 | h2
    · exact absurd (List.any_eq_true.mpr ⟨r2, h2, by simp [hdn]⟩) hany
    · have := List.mem_singleton.mp h2
      subst this
      rfl

/-- Every member of the phase one table carrying a fetched dn agrees with its
own update image outside the updated_at column, provided the fetched dns are
distinct. -/
theorem stripUpd_mem_rolesPhase1 {es : List RoleEntry} {t : Int} {tbl : List RoleRow}
    {r2 : RoleRow} (hnd : (es.map RoleEntry.dn).Nodup) (h : r2 ∈ rolesPhase1 es t tbl) :
    ∀ e ∈ es, r2.dn = e.dn → stripUpd r2 = stripUpd (roleUpdRow e t r2) := by
  induction es generalizing tbl with
  | nil => intro e he; cases he
  | cons e0 rest ih =>
    intro e he hdn
    have h2 : r2 ∈ rolesPhase1 rest t (upsertRole e0 t tbl) := h
    rw [List.map_cons] at hnd
    have hnd2 : (rest.map RoleEntry.dn).Nodup := hnd.of_cons
    rcases List.mem_cons.mp he with rfl | hm
    · have hnotin : e.dn ∉ rest.map RoleEntry.dn := (List.nodup_cons.mp hnd).1
      have hnotin2 : r2.dn ∉ rest.map RoleEntry.dn := by rw [hdn]; exact hnotin
      have hmem : r2 ∈ upsertRole e t tbl := (mem_rolesPhase1 h2).2 hnotin2
      exact stripUpd_mem_upsertRole hmem hdn
    · exact ih hnd2 h2 e hm hdn

/-- Replaying the phase one fold over a table that already reflects the same
entries rewrites only updated_at: outside that column the table is unchanged. -/
theorem rolesPhase1_strip_id {es : List RoleEntry} {t : Int} {tbl : List RoleRow}
    (hnd : (es.map RoleEntry.dn).Nodup)
    (hcons : ∀ e ∈ es, ∀ r ∈ tbl, r.dn = e.dn → stripUpd r = stripUpd (roleUpdRow e t r))
    (hpres : ∀ e ∈ es, dnPresent tbl e.dn = true) :
    (rolesPhase1 es t tbl).map stripUpd = tbl.map stripUpd := by
  induction es generalizing tbl with
  | nil => rfl
  | cons e rest ih =>
    have hany : tbl.any (fun x => decide (x.dn = e.dn)) = true :=
      hpres e (List.mem_cons_self _ _)
    have hup : upsertRole e t tbl
        = tbl.map (fun r => if r.dn = e.dn then roleUpdRow e t r else r) := by
      unfold upsertRole
      rw [if_pos hany]
    have hstep : (upsertRole e t tbl).map stripUpd = tbl.map stripUpd := by
      rw [hup, List.map_map]
      refine List.map_congr_left ?_
      intro r hr
      show stripUpd (if r.dn = e.dn then roleUpdRow e t r else r) = stripUpd r
      by_cases hc : r.dn = e.dn
      · rw [if_pos hc]
        exact (hcons e (List.mem_cons_self _ _) r hr hc).symm
      · rw [if_neg hc]
    rw [List.map_cons] at hnd
    have hnd2 : (rest.map RoleEntry.dn).Nodup := hnd.of_cons
    have hnotin : e.dn ∉ rest.map RoleEntry.dn := (List.nodup_cons.mp hnd).1
    have hcons2 : ∀ e2 ∈ rest, ∀ r ∈ upsertRole e t tbl, r.dn = e2.dn →
        stripUpd r = stripUpd (roleUpdRow e2 t r) := by
      intro e2 he2 r hrmem hdn2
      rw [hup] at hrmem
      rcases List.mem_map.mp hrmem with ⟨r0, hr0, heq⟩
      by_cases hc : r0.dn = e.dn
      · rw [if_pos hc] at heq
        subst heq
        exfalso
        apply hnotin
        have he2dn : e.dn = e2.dn := hdn2
        rw [he2dn]
        exact List.mem_map.mpr ⟨e2, he2, rfl⟩
      · rw [if_neg hc] at heq
        subst heq
        exact hcons e2 (List.mem_cons_of_mem _ he2) r0 hr0 hdn2
    have hpres2 : ∀ e2 ∈ rest, dnPresent (upsertRole e t tbl) e2.dn = true := by
      intro e2 he2
      rw [dnPresent_upsertRole, hpres e2 (List.mem_cons_of_mem _ he2)]
      rfl
    have hstep2 : rolesPhase1 (e :: rest) t tbl = rolesPhase1 rest t (upsertRole e t tbl) := rfl
    rw [hstep2, ih hnd2 hcons2 hpres2, hstep]

/-- C4: running the full role synchronization twice in immediate succession
with the same directory result set, whose dns are distinct as directory dns
are, leaves the Role table identical outside the updated_at column, created_at
and is_deleted included, and leaves the RoleParent pair list exactly
unchanged; this holds whether the first run committed or rolled back, since a
rolled back run repeats identically. -/
theorem claim_C4 :
    ∀ (es : List RoleEntry) (t1 t2 : Int) (db : DB), (es.map RoleEntry.dn).Nodup →
      ((syncRoles es t2 (syncRoles es t1 db)).roles.map stripUpd
          = (syncRoles es t1 db).roles.map stripUpd) ∧
        (syncRoles es t2 (syncRoles es t1 db)).roleParents
          = (syncRoles es t1 db).roleParents := by
  intro es t1 t2 db hnd
  cases h1 : insertParentPairs (rolesPhase1 es t1 db.roles) [] (rolePairs es) with
  | none =>
    have hrun1 : syncRoles es t1 db = db := by simp only [syncRoles, h1]
    have hcongr : ∀ d, dnPresent (rolesPhase1 es t2 db.roles) d
        = dnPresent (rolesPhase1 es t1 db.roles) d := by
      intro d
      rw [dnPresent_rolesPhase1, dnPresent_rolesPhase1]
    have h2 : insertParentPairs (rolesPhase1 es t2 db.roles) [] (rolePairs es) = none := by
      rw [insertParentPairs_congr hcongr]
      exact h1
    have hrun2 : syncRoles es t2 db = db := by simp only [syncRoles, h2]
    rw [hrun1, hrun2]
    exact ⟨rfl, rfl⟩
  | some prs =>
    have hrun1 : syncRoles es t1 db
        = { db with roles := rolesPhase1 es t1 db.roles, roleParents := prs } := by
      simp only [syncRoles, h1]
    have hok : ∀ pr ∈ rolePairs es, dnPresent (rolesPhase1 es t1 db.roles) pr.1 = true
        ∧ dnPresent (rolesPhase1 es t1 db.roles) pr.2 = true := insertParentPairs_ok h1
    have hval : prs = appendPairsNoDup [] (rolePairs es) := by
      have hv := insertParentPairs_of_ok hok []
      rw [h1] at hv
      exact Option.some.inj hv
    have hok2 : ∀ pr ∈ rolePairs es,
        dnPresent (rolesPhase1 es t2 (rolesPhase1 es t1 db.roles)) pr.1 = true
        ∧ dnPresent (rolesPhase1 es t2 (rolesPhase1 es t1 db.roles)) pr.2 = true := by
      intro pr hpr
      obtain ⟨ha, hb⟩ := hok pr hpr
      constructor
      · rw [dnPresent_rolesPhase1, ha]
        rfl
      · rw [dnPresent_rolesPhase1, hb]
        rfl
    have h2 := insertParentPairs_of_ok hok2 ([] : List (String × String))
    have hrun2 :
        syncRoles es t2 { db with roles := rolesPhase1 es t1 db.roles, roleParents := prs }
        = { db with roles := rolesPhase1 es t2 (rolesPhase1 es t1 db.roles), roleParents := appendPairsNoDup [] (rolePairs es) } := by
      simp only [syncRoles]
      rw [h2]
    have hcons : ∀ e ∈ es, ∀ r ∈ rolesPhase1 es t1 db.roles, r.dn = e.dn →
        stripUpd r = stripUpd (roleUpdRow e t2 r) := by
      intro e he r hr hdn
      exact (stripUpd_mem_rolesPhase1 hnd hr e he hdn).trans (stripUpd_roleUpd e t1 t2 r)
    have hpres : ∀ e ∈ es, dnPresent (rolesPhase1 es t1 db.roles) e.dn = true := by
      intro e he
      rw [dnPresent_rolesPhase1]
      have hm : e.dn ∈ es.map RoleEntry.dn := List.mem_map.mpr ⟨e, he, rfl⟩
      simp [hm]
    have hstrip : (rolesPhase1 es t2 (rolesPhase1 es t1 db.roles)).map stripUpd
        = (rolesPhase1 es t1 db.roles).map stripUpd :=
      rolesPhase1_strip_id hnd hcons hpres
    rw [hrun1, hrun2]
    exact ⟨hstrip, hval.symm⟩

/-- Witness for C4 at a concrete committing double run with two distinct
watermarks. -/
theorem claim_C4_witness :
    ([roleEntrySelf].map RoleEntry.dn).Nodup ∧
      ((syncRoles [roleEntrySelf] 5 (syncRoles [roleEntrySelf] 0 staleDb)).roles.map stripUpd
          = (syncRoles [roleEntrySelf] 0 staleDb).roles.map stripUpd) ∧
      (syncRoles [roleEntrySelf] 5 (syncRoles [roleEntrySelf] 0 staleDb)).roleParents
        = (syncRoles [roleEntrySelf] 0 staleDb).roleParents :=
  ⟨by decide, (claim_C4 [roleEntrySelf] 0 5 staleDb (by decide)).1,
    (claim_C4 [roleEntrySelf] 0 5 staleDb (by decide)).2⟩

/-- Resource analogue of the upsert membership characterization. -/
theorem mem_upsertResource {e : ResourceEntry} {t : Int} {tbl : List ResourceRow}
    {r2 : ResourceRow} (h : r2 ∈ upsertResource e t tbl) :
    (r2.dn = e.dn → r2.updated_at = t ∧ r2.is_deleted = false) ∧
      (r2.dn ≠ e.dn → r2 ∈ tbl) := by
  unfold upsertResource at h
  by_cases hany : tbl.any (fun x => decide (x.dn = e.dn)) = true
  · rw [if_pos hany] at h
    rcases List.mem_map.mp h with ⟨r0, hr0, heq⟩
    by_cases hc : r0.dn = e.dn
    · rw [if_pos hc] at heq
      subst heq
      exact ⟨fun _ => ⟨rfl, rfl⟩, fun hne => absurd rfl hne⟩
    · rw [if_neg hc] at heq
      subst heq
      exact ⟨fun hdn => absurd hdn hc, fun _ => hr0⟩
  · rw [if_neg hany] at h
    rcases List.mem_append.mp h with h2 | h2
    · refine ⟨fun hdn => ?_, fun _ => h2⟩
      exact absurd (List.any_eq_true.mpr ⟨r2, h2, by simp [hdn]⟩) hany
    · have := List.mem_singleton.mp h2
      subst this
      exact ⟨fun _ => ⟨rfl, rfl⟩, fun hne => absurd rfl hne⟩

/-- Resource analogue of the phase fold membership characterization. -/
theorem mem_resourcesPhase {es : List ResourceEntry} {t : Int} {tbl : List ResourceRow}
    {r2 : ResourceRow} (h : r2 ∈ resourcesPhase es t tbl) :
    (r2.dn ∈ es.map ResourceEntry.dn → r2.updated_at = t ∧ r2.is_deleted = false) ∧
      (r2.dn ∉ es.map ResourceEntry.dn → r2 ∈ tbl) := by
  induction es generalizing tbl with
  | nil => exact ⟨fun hm => absurd hm (by simp), fun _ => h⟩
  | cons e rest ih =>
    have h2 : r2 ∈ resourcesPhase rest t (upsertResource e t tbl) := h
    obtain ⟨ha, hb⟩ := ih h2
    constructor
    · intro hm
      rw [List.map_cons] at hm
      rcases List.mem_cons.mp hm with heq | hm2
      · by_cases hin : r2.dn ∈ rest.map ResourceEntry.dn
        · exact ha hin
        · exact (mem_upsertResource (hb hin)).1 heq
      · exact ha hm2
    · intro hm
      rw [List.map_cons] at hm
      have hm2 : r2.dn ∉ rest.map ResourceEntry.dn := fun hx => hm (List.mem_cons_of_mem _ hx)
      have hne : r2.dn ≠ e.dn := fun hx => hm (by rw [hx]; exact List.mem_cons_self _ _)
      exact (mem_upsertResource (hb hm2)).2 hne

/-- Association analogue of the upsert membership characterization. -/
theorem mem_upsertAssoc {e : AssocEntry} {t : Int} {tbl : List AssocRow}
    {r2 : AssocRow} (h : r2 ∈ upsertAssoc e t tbl) :
    (r2.dn = e.dn → r2.updated_at = t ∧ r2.is_deleted = false) ∧
      (r2.dn ≠ e.dn → r2 ∈ tbl) := by
  unfold upsertAssoc at h
  by_cases hany : tbl.any (fun x => decide (x.dn = e.dn)) = true
  · rw [if_pos hany] at h
    rcases List.mem_map.mp h with ⟨r0, hr0, heq⟩
    by_cases hc : r0.dn = e.dn
    · rw [if_pos hc] at heq
      subst heq
      exact ⟨fun _ => ⟨rfl, rfl⟩, fun hne => absurd rfl hne⟩
    · rw [if_neg hc] at heq
      subst heq
      exact ⟨fun hdn => absurd hdn hc, fun _ => hr0⟩
  · rw [if_neg hany] at h
    rcases List.mem_append.mp h with h2 | h2
    · refine ⟨fun hdn => ?_, fun _ => h2⟩
      exact absurd (List.any_eq_true.mpr ⟨r2, h2, by simp [hdn]⟩) hany
    · have := List.mem_singleton.mp h2
      subst this
      exact ⟨fun _ => ⟨rfl, rfl⟩, fun hne => absurd rfl hne⟩

/-- Association analogue of the phase fold membership characterization. -/
theorem mem_assocsPhase {es : List AssocEntry} {t : Int} {tbl : List AssocRow}
    {r2 : AssocRow} (h : r2 ∈ assocsPhase es t tbl) :
    (r2.dn ∈ es.map AssocEntry.dn → r2.updated_at = t ∧ r2.is_deleted = false) ∧
      (r2.dn ∉ es.map AssocEntry.dn → r2 ∈ tbl) := by
  induction es generalizing tbl with
  | nil => exact ⟨fun hm => absurd hm (by simp), fun _ => h⟩
  | cons e rest ih =>
    have h2 : r2 ∈ assocsPhase rest t (upsertAssoc e t tbl) := h
    obtain ⟨ha, hb⟩ := ih h2
    constructor
    · intro hm
      rw [List.map_cons] at hm
      rcases List.mem_cons.mp hm with heq | hm2
      · by_cases hin : r2.dn ∈ rest.map AssocEntry.dn
        · exact ha hin
        · exact (mem_upsertAssoc (hb hin)).1 heq
      · exact ha hm2
    · intro hm
      rw [List.map_cons] at hm
      have hm2 : r2.dn ∉ rest.map AssocEntry.dn := fun hx => hm (List.mem_cons_of_mem _ hx)
      have hne : r2.dn ≠ e.dn := fun hx => hm (by rw [hx]; exact List.mem_cons_self _ _)
      exact (mem_upsertAssoc (hb hm2)).2 hne

/-- C1: after a full run whose synchronizers all committed, on each of the
three tables a surviving row carries updated_at equal to the run watermark
exactly when its dn appeared in the directory result set of that run; the
hypotheses say that every row predates the watermark when the run starts, as
the watermark is captured fresh at run start, and that the role transaction
committed; observed rows are stamped by the upsert, unobserved rows keep
their strictly earlier updated_at, which neither the mark step nor the purge
step ever modifies. -/
theorem claim_C1 :
    ∀ (re : List RoleEntry) (se : List ResourceEntry) (ae : List AssocEntry)
      (t purgeAgeInDays : Int) (db : DB),
      (∀ r ∈ db.roles, r.updated_at < t) →
      (∀ r ∈ db.resources, r.updated_at < t) →
      (∀ r ∈ db.assocs, r.updated_at < t) →
      (insertParentPairs (rolesPhase1 re t db.roles) [] (rolePairs re)).isSome = true →
      (∀ r ∈ (fullRun re se ae t purgeAgeInDays db).roles,
          (r.updated_at = t ↔ r.dn ∈ re.map RoleEntry.dn)) ∧
      (∀ r ∈ (fullRun re se ae t purgeAgeInDays db).resources,
          (r.updated_at = t ↔ r.dn ∈ se.map ResourceEntry.dn)) ∧
      (∀ r ∈ (fullRun re se ae t purgeAgeInDays db).assocs,
          (r.updated_at = t ↔ r.dn ∈ ae.map AssocEntry.dn)) := by
  intro re se ae t purge db hR hS hA hok
  obtain ⟨prs, hprs⟩ := Option.isSome_iff_exists.mp hok
  have hsync : syncRoles re t db
      = { db with roles := rolesPhase1 re t db.roles, roleParents := prs } := by
    simp only [syncRoles, hprs]
  have hfull : fullRun re se ae t purge db
      = markAndPurge t purge
          { roles := rolesPhase1 re t db.roles, roleParents := prs,
            resources := resourcesPhase se t db.resources,
            assocs := assocsPhase ae t db.assocs } := by
    unfold fullRun
    rw [hsync]
    rfl
  rw [hfull]
  refine ⟨?_, ?_, ?_⟩
  · intro r hr
    have hr1 : r ∈ List.filter
        (fun x => !(x.is_deleted && decide (x.updated_at < addDays t (-purge))))
        (markRoles t (rolesPhase1 re t db.roles)) := hr
    have hr2 : r ∈ markRoles t (rolesPhase1 re t db.roles) := (List.mem_filter.mp hr1).1
    rcases List.mem_map.mp hr2 with ⟨r1, hm1, heq⟩
    have hdn : r.dn = r1.dn := by
      rw [← heq]
      by_cases hc : r1.updated_at < t <;> simp [hc]
    have hupd : r.updated_at = r1.updated_at := by
      rw [← heq]
      by_cases hc : r1.updated_at < t <;> simp [hc]
    obtain ⟨hstamp, hkeep⟩ := mem_rolesPhase1 hm1
    constructor
    · intro ht
      by_contra hnot
      have hnot1 : r1.dn ∉ re.map RoleEntry.dn := by rw [← hdn]; exact hnot
      have hlt := hR r1 (hkeep hnot1)
      rw [← hupd, ht] at hlt
      exact lt_irrefl t hlt
    · intro hmem
      have hmem1 : r1.dn ∈ re.map RoleEntry.dn := by rw [← hdn]; exact hmem
      rw [hupd, (hstamp hmem1).1]
  · intro r hr
    have hr1 : r ∈ List.filter
        (fun x => !(x.is_deleted && decide (x.updated_at < addDays t (-purge))))
        (markResources t (resourcesPhase se t db.resources)) := hr
    have hr2 : r ∈ markResources t (resourcesPhase se t db.resources) :=
      (List.mem_filter.mp hr1).1
    rcases List.mem_map.mp hr2 with ⟨r1, hm1, heq⟩
    have hdn : r.dn = r1.dn := by
      rw [← heq]
      by_cases hc : r1.updated_at < t <;> simp [hc]
    have hupd : r.updated_at = r1.updated_at := by
      rw [← heq]
      by_cases hc : r1.updated_at < t <;> simp [hc]
    obtain ⟨hstamp, hkeep⟩ := mem_resourcesPhase hm1
    constructor
    · intro ht
      by_contra hnot
      have hnot1 : r1.dn ∉ se.map ResourceEntry.dn := by rw [← hdn]; exact hnot
      have hlt := hS r1 (hkeep hnot1)
      rw [← hupd, ht] at hlt
      exact lt_irrefl t hlt
    · intro hmem
      have hmem1 : r1.dn ∈ se.map ResourceEntry.dn := by rw [← hdn]; exact hmem
      rw [hupd, (hstamp hmem1).1]
  · intro r hr
    have hr1 : r ∈ List.filter
        (fun x => !(x.is_deleted && decide (x.updated_at < addDays t (-purge))))
        (markAssocs t (assocsPhase ae t db.assocs)) := hr
    have hr2 : r ∈ markAssocs t (assocsPhase ae t db.assocs) := (List.mem_filter.mp hr1).1
    rcases List.mem_map.mp hr2 with ⟨r1, hm1, heq⟩
    have hdn : r.dn = r1.dn := by
      rw [← heq]
      by_cases hc : r1.updated_at < t <;> simp [hc]
    have hupd : r.updated_at = r1.updated_at := by
      rw [← heq]
      by_cases hc : r1.updated_at < t <;> simp [hc]
    obtain ⟨hstamp, hkeep⟩ := mem_assocsPhase hm1
    constructor
    · intro ht
      by_contra hnot
      have hnot1 : r1.dn ∉ ae.map AssocEntry.dn := by rw [← hdn]; exact hnot
      have hlt := hA r1 (hkeep hnot1)
      rw [← hupd, ht] at hlt
      exact lt_irrefl t hlt
    · intro hmem
      have hmem1 : r1.dn ∈ ae.map AssocEntry.dn := by rw [← hdn]; exact hmem
      rw [hupd, (hstamp hmem1).1]

/-- Witness for C1 at a concrete committing run over the stale database. -/
theorem claim_C1_witness :
    (∀ r ∈ staleDb.roles, r.updated_at < 0) ∧
      (insertParentPairs (rolesPhase1 [roleEntrySelf] 0 staleDb.roles) []
          (rolePairs [roleEntrySelf])).isSome = true ∧
      (∀ r ∈ (fullRun [roleEntrySelf] [] [] 0 7 staleDb).roles,
          (r.updated_at = 0 ↔ r.dn ∈ [roleEntrySelf].map RoleEntry.dn)) :=
  ⟨by decide, by decide,
    (claim_C1 [roleEntrySelf] [] [] 0 7 staleDb (by decide) (by decide) (by decide)
      (by decide)).1⟩

/-- The split never produces an empty part list. -/
theorem goSplitCharsFuel_ne_nil (sep : List Char) (fuel : Nat) (cs : List Char) :
    goSplitCharsFuel sep fuel cs ≠ [] := by
  match fuel, cs with
  | _, [] => simp [goSplitCharsFuel]
  | 0, c :: cs2 => simp [goSplitCharsFuel]
  | fuel + 1, c :: cs2 =>
    unfold goSplitCharsFuel
    by_cases h : startsWithSep (c :: cs2) sep = true
    · simp [h]
    · rw [if_neg h]
      cases hrec : goSplitCharsFuel sep fuel cs2 <;> simp

/-- A split producing a single part returns the input whole. -/
theorem goSplitCharsFuel_singleton {sep : List Char} {fuel : Nat} {cs x : List Char}
    (h : goSplitCharsFuel sep fuel cs = [x]) : x = cs := by
  induction fuel generalizing cs x with
  | zero =>
    cases cs with
    | nil =>
      simp [goSplitCharsFuel] at h
      exact h
    | cons c cs2 =>
      simp [goSplitCharsFuel] at h
      exact h.symm
  | succ fuel ih =>
    cases cs with
    | nil =>
      simp [goSplitCharsFuel] at h
      exact h
    | cons c cs2 =>
      unfold goSplitCharsFuel at h
      by_cases hs : startsWithSep (c :: cs2) sep = true
      · rw [if_pos hs] at h
        injection h with h1 h2
        exact absurd h2 (goSplitCharsFuel_ne_nil _ _ _)
      · rw [if_neg hs] at h
        cases hrec : goSplitCharsFuel sep fuel cs2 with
        | nil => exact absurd hrec (goSplitCharsFuel_ne_nil _ _ _)
        | cons part rest =>
          rw [hrec] at h
          injection h with h1 h2
          subst h2
          rw [← h1, ih hrec]

/-- A string not containing the nonempty separator splits into itself alone. -/
theorem goSplit_single {s old : String} (hold : ¬ old = "") (h : goContains s old = false) :
    goSplit s old = [s] := by
  unfold goContains at h
  unfold goSplit at h ⊢
  rw [if_neg hold] at h ⊢
  cases hp : goSplitCharsFuel old.data s.data.length s.data with
  | nil => exact absurd hp (goSplitCharsFuel_ne_nil _ _ _)
  | cons x rest =>
    cases rest with
    | nil =>
      rw [goSplitCharsFuel_singleton hp]
      rfl
    | cons y ys =>
      rw [hp] at h
      simp at h

/-- Replacement of a pattern not occurring in the string does nothing. -/
theorem goReplaceAll_id {s old : String} (new : String) (hold : ¬ old = "")
    (h : goContains s old = false) : goReplaceAll s old new = s := by
  unfold goReplaceAll
  rw [goSplit_single hold h]
  rfl

/-- Counterexample for C8 as stated. The claim asserts that the decoder
replaces exactly the three entities for quote, less than and greater than and
no others in the parameter value text, and that an input using other entities
fails to parse and leaves the derived field empty. But the XML unmarshalling
itself entity decodes the character data before the three explicit
substitutions run, so on a value text written with amp prefixed entities,
which lies outside the three, the decode succeeds: the derived field holds the
reserialized JSON object instead of staying empty. -/
theorem claim_C8_counterexample :
    goContains "\x7b&amp;quot;a&amp;quot;:1\x7d" "&amp;" = true ∧
      decodeDynamicParmVals
          "<parameter><value>\x7b&amp;quot;a&amp;quot;:1\x7d</value></parameter>"
        = "\x7b\"a\":1\x7d" ∧
      decodeDynamicParmVals
          "<parameter><value>\x7b&amp;quot;a&amp;quot;:1\x7d</value></parameter>" ≠ "" := by
  refine ⟨by decide, by decide, by decide⟩

/-- C8 amended: the three explicit substitution lines replace exactly the
entities for quote, less than and greater than and no others in the text they
receive, but that text has already been entity decoded by the XML
unmarshalling, which resolves the five predefined entities and numeric
references in character data, so a value text escaped with amp prefixed
entities still decodes successfully instead of failing soft; after the
substitution, a successful JSON parse stores the canonical reserialization of
the decoded value in the derived column, a failed parse leaves the derived
column empty, and in both cases the association row stores the raw XML
attribute unmodified. -/
theorem claim_C8 :
    (∀ s, goContains s "&quot;" = false → goContains s "&lt;" = false →
      goContains s "&gt;" = false → unescapeValueText s = s) ∧
    (unescapeValueText "&quot;&lt;&gt;" = String.singleton quoteChar ++ "<>") ∧
    (xmlUnmarshalParameterValue "<parameter><value>&amp;quot;x&amp;quot;</value></parameter>"
        = some "&quot;x&quot;") ∧
    (∀ (s inner : String) (j : Json), xmlUnmarshalParameterValue s = some inner →
      (Json.parse (unescapeValueText inner) = some j →
          decodeDynamicParmVals s = Json.serialize j) ∧
      (Json.parse (unescapeValueText inner) = none → decodeDynamicParmVals s = "")) ∧
    (∀ (e : AssocEntry) (t : Int),
      (mkAssocRow e t).nrfDynamicParmVals = e.nrfDynamicParmVals) := by
  refine ⟨?_, by decide, by decide, ?_, fun e t => rfl⟩
  · intro s h1 h2 h3
    unfold unescapeValueText
    rw [goReplaceAll_id _ (by decide) h1, goReplaceAll_id _ (by decide) h2,
      goReplaceAll_id _ (by decide) h3]
  · intro s inner j hx
    have hs : ¬ s = "" := by
      intro h0
      rw [h0] at hx
      have hnone : xmlUnmarshalParameterValue "" = none := rfl
      rw [hnone] at hx
      exact Option.noConfusion hx
    constructor
    · intro hj
      unfold decodeDynamicParmVals
      rw [if_pos hs, hx]
      simp only [hj]
    · intro hj
      unfold decodeDynamicParmVals
      rw [if_pos hs, hx]
      simp only [hj]

/-- Witness for C8 amended: a text without the three entities passes the
substitution untouched, and the doubly escaped sample value decodes through
the XML layer and the substitution into the canonically reserialized JSON
object. -/
theorem claim_C8_witness :
    (goContains "&amp;x" "&quot;" = false ∧ unescapeValueText "&amp;x" = "&amp;x") ∧
      (xmlUnmarshalParameterValue
            "<parameter><value>\x7b&amp;quot;a&amp;quot;:1\x7d</value></parameter>"
          = some "\x7b&quot;a&quot;:1\x7d" ∧
        Json.parse (unescapeValueText "\x7b&quot;a&quot;:1\x7d")
          = some (Json.obj [("a", Json.num "1")]) ∧
        decodeDynamicParmVals
            "<parameter><value>\x7b&amp;quot;a&amp;quot;:1\x7d</value></parameter>"
          = Json.serialize (Json.obj [("a", Json.num "1")])) :=
  ⟨⟨by decide, claim_C8.1 "&amp;x" (by decide) (by decide) (by decide)⟩,
    ⟨rfl, rfl,
      (claim_C8.2.2.2.1
        "<parameter><value>\x7b&amp;quot;a&amp;quot;:1\x7d</value></parameter>"
        "\x7b&quot;a&quot;:1\x7d" (Json.obj [("a", Json.num "1")]) rfl).1 rfl⟩⟩

end LdapSync
